import Mathlib

/-!
# Verification of bbse (Backward Binary Search Encoding)

Shallow embedding of `src/lib.rs`: `encode_from`, `encode`, `decode`,
plus the spec-described `decode_from` (absent from the source tree) and a
width-parametric model of the same code under fixed-width (wrapping)
machine arithmetic.

The Rust functions signal precondition violations by panicking with one of
four messages; we model them as an `Except` over the four named error kinds
of the spec's error taxonomy.  The Rust `while` loop is modelled with an
explicit fuel argument; the callers pass `end - start` fuel, which is shown
sufficient for every terminating run of the source loop (the loop measure
`right - left` strictly decreases each iteration).
-/

/-- Decidable equality on `Except`, so that concrete runs of the model can
be checked by `decide`. -/
instance {ε α : Type} [DecidableEq ε] [DecidableEq α] :
    DecidableEq (Except ε α) := fun x y =>
  match x, y with
  | .ok a, .ok b =>
      if h : a = b then .isTrue (by rw [h]) else .isFalse (by simp [h])
  | .error a, .error b =>
      if h : a = b then .isTrue (by rw [h]) else .isFalse (by simp [h])
  | .ok _, .error _ => .isFalse (by simp)
  | .error _, .ok _ => .isFalse (by simp)

namespace BBSE

/-- The four failure kinds of the spec's error taxonomy (the Rust source
panics with a distinct message for each). -/
inductive BBSEError where
  | invalidRange
  | targetOutOfBounds
  | midpointOutOfBounds
  | incompletePath
  deriving DecidableEq, Repr

/-- The `while right - left > 1` loop of `encode_from` (src/lib.rs lines
78–95): push a decision bit, narrow the bounds, break when the narrowed
range has exactly one element, otherwise recompute `mid = (left+right)/2`
and continue.  `fuel` bounds the number of iterations; callers pass
`end - start`, which strictly exceeds the iteration count of every
terminating run. -/
def encodeLoop (fuel : Nat) (target lo hi mid : Nat) : List Bool :=
  match fuel with
  | 0 => []
  | f + 1 =>
    if 1 < hi - lo then
      if target < mid then
        if mid - lo = 1 then [false]
        else false :: encodeLoop f target lo mid ((lo + mid) / 2)
      else
        if hi - mid = 1 then [true]
        else true :: encodeLoop f target mid hi ((mid + hi) / 2)
    else []

/-- `encode_from` (src/lib.rs lines 60–96): validate the range, the target,
then (unless the range is already a singleton) the caller-supplied first
midpoint, and run the search loop. -/
def encode_from (start endv target midpoint : Nat) : Except BBSEError (List Bool) :=
  if ¬ start < endv then .error .invalidRange
  else if ¬ (start ≤ target ∧ target < endv) then .error .targetOutOfBounds
  else if endv - start ≤ 1 then .ok []
  else if ¬ (start < midpoint ∧ midpoint < endv) then .error .midpointOutOfBounds
  else .ok (encodeLoop (endv - start) target start endv midpoint)

/-- `encode` (src/lib.rs lines 99–102): `encode_from` with the arithmetic
midpoint `(start + end) / 2`. -/
def encode (start endv target : Nat) : Except BBSEError (List Bool) :=
  encode_from start endv target ((start + endv) / 2)

/-- The bit-consuming loop of `decode` (src/lib.rs lines 110–117): fold the
path over the bounds, recomputing `mid = (start + end) / 2` at each bit;
`true` raises the lower bound to `mid`, `false` lowers the upper bound. -/
def decodeBounds (lo hi : Nat) (path : List Bool) : Nat × Nat :=
  match path with
  | [] => (lo, hi)
  | b :: rest =>
    let mid := (lo + hi) / 2
    if b then decodeBounds mid hi rest else decodeBounds lo mid rest

/-- `decode` (src/lib.rs lines 109–120): consume every bit, then demand that
the final bounds describe exactly one element (`start + 1 == end`), and
return the lower bound. -/
def decode (start endv : Nat) (path : List Bool) : Except BBSEError Nat :=
  let p := decodeBounds start endv path
  if p.1 + 1 = p.2 then .ok p.1 else .error .incompletePath

/-- Modelled from the spec: `decode_from` is declared in the spec (§4.3,
§6) but has no definition under src/.  Per the spec's words: an empty path
returns the supplied `midpoint` immediately; otherwise the first bit is
decided against the supplied `midpoint` (lower bound `midpoint` on `true`,
upper bound `midpoint` on `false`), every later bit against the recomputed
arithmetic midpoint, and after all bits are consumed the bounds must
describe exactly one element, whose lower bound is returned. -/
def decode_from (start endv : Nat) (path : List Bool) (midpoint : Nat) :
    Except BBSEError Nat :=
  match path with
  | [] => .ok midpoint
  | b :: rest =>
    let p := if b then decodeBounds midpoint endv rest
             else decodeBounds start midpoint rest
    if p.1 + 1 = p.2 then .ok p.1 else .error .incompletePath

/-! ## Fixed-width (wrapping) model

The Rust source computes on `usize`.  `wadd`/`wsub` are `w`-bit wrapping
addition and subtraction on values below `2 ^ w`; `encodeLoopW`,
`encode_fromW`, `encodeW`, `decodeBoundsW`, `decodeW` are the same
functions as above with every arithmetic operation wrapped. -/

/-- `w`-bit wrapping addition. -/
def wadd (w a b : Nat) : Nat := (a + b) % 2 ^ w

/-- `w`-bit wrapping subtraction (for `a, b < 2 ^ w`). -/
def wsub (w a b : Nat) : Nat := (a + 2 ^ w - b) % 2 ^ w

/-- The search loop of `encode_from` under `w`-bit wrapping arithmetic. -/
def encodeLoopW (w fuel : Nat) (target lo hi mid : Nat) : List Bool :=
  match fuel with
  | 0 => []
  | f + 1 =>
    if 1 < wsub w hi lo then
      if target < mid then
        if wsub w mid lo = 1 then [false]
        else false :: encodeLoopW w f target lo mid (wadd w lo mid / 2)
      else
        if wsub w hi mid = 1 then [true]
        else true :: encodeLoopW w f target mid hi (wadd w mid hi / 2)
    else []

/-- `encode_from` under `w`-bit wrapping arithmetic. -/
def encode_fromW (w start endv target midpoint : Nat) :
    Except BBSEError (List Bool) :=
  if ¬ start < endv then .error .invalidRange
  else if ¬ (start ≤ target ∧ target < endv) then .error .targetOutOfBounds
  else if wsub w endv start ≤ 1 then .ok []
  else if ¬ (start < midpoint ∧ midpoint < endv) then .error .midpointOutOfBounds
  else .ok (encodeLoopW w (wsub w endv start) target start endv midpoint)

/-- `encode` under `w`-bit wrapping arithmetic: the default midpoint is
`((start + end) mod 2 ^ w) / 2`. -/
def encodeW (w start endv target : Nat) : Except BBSEError (List Bool) :=
  encode_fromW w start endv target (wadd w start endv / 2)

/-- The bit-consuming loop of `decode` under `w`-bit wrapping arithmetic. -/
def decodeBoundsW (w lo hi : Nat) (path : List Bool) : Nat × Nat :=
  match path with
  | [] => (lo, hi)
  | b :: rest =>
    let mid := wadd w lo hi / 2
    if b then decodeBoundsW w mid hi rest else decodeBoundsW w lo mid rest

/-- `decode` under `w`-bit wrapping arithmetic. -/
def decodeW (w start endv : Nat) (path : List Bool) : Except BBSEError Nat :=
  let p := decodeBoundsW w start endv path
  if wadd w p.1 1 = p.2 then .ok p.1 else .error .incompletePath

end BBSE

namespace BBSE

/-! ## Soundness of the search loop -/

/-- Core loop invariant: a search step over `[lo, hi)` (at least two
elements) with a split point strictly inside emits at least one bit, and
replaying the emitted bits — the first against the same split point, the
rest against recomputed arithmetic midpoints — narrows the bounds to the
singleton `(target, target + 1)`. -/
lemma encodeLoop_sound :
    ∀ fuel lo hi mid target, 2 ≤ hi - lo → lo < mid → mid < hi →
      lo ≤ target → target < hi → hi - lo ≤ fuel →
      ∃ b rest, encodeLoop fuel target lo hi mid = b :: rest ∧
        (if b then decodeBounds mid hi rest else decodeBounds lo mid rest) =
          (target, target + 1) := by
  intro fuel
  induction fuel with
  | zero => intro lo hi mid target h2 _ _ _ _ hf; omega
  | succ f ih =>
    intro lo hi mid target h2 hlm hmh hlt hth hf
    by_cases hc : target < mid
    · by_cases h1 : mid - lo = 1
      · refine ⟨false, [], ?_, ?_⟩
        · simp only [encodeLoop]
          rw [if_pos (show 1 < hi - lo by omega), if_pos hc, if_pos h1]
        · have ht : lo = target := by omega
          have hm : mid = target + 1 := by omega
          simp [decodeBounds, ht, hm]
      · obtain ⟨b', rest', hE, hD⟩ :=
          ih lo mid ((lo + mid) / 2) target (by omega) (by omega) (by omega)
            hlt hc (by omega)
        refine ⟨false, b' :: rest', ?_, ?_⟩
        · simp only [encodeLoop]
          rw [if_pos (show 1 < hi - lo by omega), if_pos hc, if_neg h1, hE]
        · simp only [Bool.false_eq_true, if_false, decodeBounds]
          exact hD
    · by_cases h1 : hi - mid = 1
      · refine ⟨true, [], ?_, ?_⟩
        · simp only [encodeLoop]
          rw [if_pos (show 1 < hi - lo by omega), if_neg hc, if_pos h1]
        · have ht : mid = target := by omega
          have hm : hi = target + 1 := by omega
          simp [decodeBounds, ht, hm]
      · obtain ⟨b', rest', hE, hD⟩ :=
          ih mid hi ((mid + hi) / 2) target (by omega) (by omega) (by omega)
            (by omega) hth (by omega)
        refine ⟨true, b' :: rest', ?_, ?_⟩
        · simp only [encodeLoop]
          rw [if_pos (show 1 < hi - lo by omega), if_neg hc, if_neg h1, hE]
        · simp only [if_true, decodeBounds]
          exact hD

/-- Replaying a default-midpoint search path narrows `[lo, hi)` to the
singleton `(target, target + 1)`. -/
lemma decodeBounds_encodeLoop (fuel lo hi target : Nat) (h2 : 2 ≤ hi - lo)
    (hlt : lo ≤ target) (hth : target < hi) (hf : hi - lo ≤ fuel) :
    decodeBounds lo hi (encodeLoop fuel target lo hi ((lo + hi) / 2)) =
      (target, target + 1) := by
  obtain ⟨b, rest, hE, hD⟩ :=
    encodeLoop_sound fuel lo hi ((lo + hi) / 2) target h2 (by omega) (by omega)
      hlt hth hf
  rw [hE]
  simp only [decodeBounds]
  exact hD

/-! ## Unfolding the validation prologue of `encode_from` -/

/-- On a valid non-singleton call, `encode_from` passes all checks and runs
the loop. -/
lemma encode_from_ok (s e t m : Nat) (h1 : s < e) (h2 : s ≤ t) (h3 : t < e)
    (h4 : 2 ≤ e - s) (h5 : s < m) (h6 : m < e) :
    encode_from s e t m = .ok (encodeLoop (e - s) t s e m) := by
  unfold encode_from
  rw [if_neg (by omega), if_neg (by omega), if_neg (by omega),
    if_neg (by omega)]

/-- On a valid singleton-range call, `encode_from` returns the empty path
before looking at the midpoint. -/
lemma encode_from_singleton (s e t m : Nat) (h1 : s < e) (h2 : s ≤ t)
    (h3 : t < e) (h4 : e - s ≤ 1) : encode_from s e t m = .ok [] := by
  unfold encode_from
  rw [if_neg (by omega), if_neg (by omega), if_pos h4]

/-- The default-midpoint round trip: `decode` inverts `encode` on any valid
range and target. -/
lemma roundtrip (s e t : Nat) (h1 : s < e) (h2 : s ≤ t) (h3 : t < e) :
    ∃ p, encode s e t = .ok p ∧ decode s e p = .ok t := by
  by_cases h4 : 2 ≤ e - s
  · refine ⟨encodeLoop (e - s) t s e ((s + e) / 2), ?_, ?_⟩
    · exact encode_from_ok s e t ((s + e) / 2) h1 h2 h3 h4 (by omega) (by omega)
    · simp [decode, decodeBounds_encodeLoop (e - s) s e t h4 h2 h3 le_rfl]
  · have h5 : e = s + 1 := by omega
    have h6 : t = s := by omega
    refine ⟨[], ?_, ?_⟩
    · exact encode_from_singleton s e t ((s + e) / 2) h1 h2 h3 (by omega)
    · simp only [decode, decodeBounds]
      rw [if_pos (by omega)]
      simp [h6]

/-- Custom-midpoint round trip against the spec-modelled `decode_from`. -/
lemma roundtrip_from (s e t m : Nat) (h1 : s < e) (h2 : s ≤ t) (h3 : t < e)
    (h5 : s < m) (h6 : m < e) :
    ∃ p, encode_from s e t m = .ok p ∧ decode_from s e p m = .ok t := by
  have h4 : 2 ≤ e - s := by omega
  obtain ⟨b, rest, hE, hD⟩ :=
    encodeLoop_sound (e - s) s e m t h4 h5 h6 h2 h3 le_rfl
  refine ⟨b :: rest, ?_, ?_⟩
  · rw [encode_from_ok s e t m h1 h2 h3 h4 h5 h6, hE]
  · simp only [decode_from]
    rw [hD]
    simp

/-- On a range with at least two elements, the loop emits at least one
bit. -/
lemma encodeLoop_ne_nil (fuel lo hi mid target : Nat) (h2 : 2 ≤ hi - lo)
    (h5 : lo < mid) (h6 : mid < hi) (hlt : lo ≤ target) (hth : target < hi)
    (hf : hi - lo ≤ fuel) : encodeLoop fuel target lo hi mid ≠ [] := by
  obtain ⟨b, rest, hE, _⟩ :=
    encodeLoop_sound fuel lo hi mid target h2 h5 h6 hlt hth hf
  rw [hE]
  exact List.cons_ne_nil b rest

/-- The decode loop is the in-order left fold of the bits over the bounds,
recomputing the midpoint from the current bounds at each bit. -/
lemma decodeBounds_foldl :
    ∀ (path : List Bool) (lo hi : Nat),
      decodeBounds lo hi path =
        path.foldl
          (fun q b =>
            if b then ((q.1 + q.2) / 2, q.2) else (q.1, (q.1 + q.2) / 2))
          (lo, hi) := by
  intro path
  induction path with
  | nil => intro lo hi; rfl
  | cons b rest ih =>
    intro lo hi
    simp only [decodeBounds, List.foldl]
    cases b <;> simp [ih]

/-- `decode` rejects exactly when the final bounds are not a singleton. -/
lemma decode_error_iff (s e : Nat) (path : List Bool) :
    decode s e path = .error .incompletePath ↔
      (decodeBounds s e path).2 - (decodeBounds s e path).1 ≠ 1 := by
  simp only [decode]
  by_cases h : (decodeBounds s e path).1 + 1 = (decodeBounds s e path).2
  · rw [if_pos h]
    constructor
    · intro hc; exact absurd hc (by simp)
    · intro hne; exact absurd hne (by omega)
  · rw [if_neg h]
    constructor
    · intro _; omega
    · intro _; rfl

/-- On singleton final bounds, `decode` returns the lower bound. -/
lemma decode_ok_of_singleton (s e : Nat) (path : List Bool)
    (h : (decodeBounds s e path).2 - (decodeBounds s e path).1 = 1) :
    decode s e path = .ok (decodeBounds s e path).1 := by
  simp only [decode]
  rw [if_pos (by omega)]

/-- When the target is the default first midpoint of a range with at least
two elements, the first emitted bit is `true` (the encoder treats
`target == mid` as "go right" and keeps searching). -/
lemma encode_midpoint_first_bit (s e : Nat) (h4 : 2 ≤ e - s) :
    ∃ rest, encode s e ((s + e) / 2) = .ok (true :: rest) := by
  have h1 : s < e := by omega
  have h2 : s ≤ (s + e) / 2 := by omega
  have h3 : (s + e) / 2 < e := by omega
  rw [encode, encode_from_ok s e _ _ h1 h2 h3 h4 (by omega) (by omega)]
  obtain ⟨f, hf⟩ : ∃ f, e - s = f + 1 := ⟨e - s - 1, by omega⟩
  rw [hf]
  simp only [encodeLoop]
  rw [if_pos (by omega), if_neg (by omega)]
  by_cases h : e - (s + e) / 2 = 1
  · rw [if_pos h]; exact ⟨[], rfl⟩
  · rw [if_neg h]; exact ⟨_, rfl⟩

/-! ## Path lengths -/

/-- On a range of size exactly `2 ^ k` (`k ≥ 1`) the default-midpoint loop
emits exactly `k` bits, whatever the target. -/
lemma encodeLoop_length_pow (k : Nat) (hk : 1 ≤ k) :
    ∀ fuel lo target, 2 ^ k ≤ fuel →
      (encodeLoop fuel target lo (lo + 2 ^ k)
        ((lo + (lo + 2 ^ k)) / 2)).length = k := by
  induction k, hk using Nat.le_induction with
  | base =>
    intro fuel lo target hfuel
    simp only [pow_one] at hfuel ⊢
    obtain ⟨f, rfl⟩ : ∃ f, fuel = f + 1 := ⟨fuel - 1, by omega⟩
    simp only [encodeLoop]
    have hmid : (lo + (lo + 2)) / 2 = lo + 1 := by omega
    rw [hmid, if_pos (by omega)]
    by_cases hc : target < lo + 1
    · rw [if_pos hc, if_pos (by omega)]; rfl
    · rw [if_neg hc, if_pos (by omega)]; rfl
  | succ k hk ih =>
    intro fuel lo target hfuel
    have h2k : 2 ^ (k + 1) = 2 ^ k + 2 ^ k := by rw [pow_succ]; omega
    have hM2 : 2 ≤ 2 ^ k := by
      have := Nat.pow_le_pow_right (show 1 ≤ 2 by norm_num) hk
      simpa using this
    obtain ⟨f, rfl⟩ : ∃ f, fuel = f + 1 := ⟨fuel - 1, by omega⟩
    simp only [encodeLoop]
    have hmid : (lo + (lo + 2 ^ (k + 1))) / 2 = lo + 2 ^ k := by omega
    rw [hmid, if_pos (by omega)]
    by_cases hc : target < lo + 2 ^ k
    · rw [if_pos hc, if_neg (show ¬(lo + 2 ^ k - lo = 1) by omega)]
      simp only [List.length_cons]
      rw [ih f lo target (by omega)]
    · rw [if_neg hc,
        if_neg (show ¬(lo + 2 ^ (k + 1) - (lo + 2 ^ k) = 1) by omega)]
      simp only [List.length_cons]
      have hhi : lo + 2 ^ (k + 1) = lo + 2 ^ k + 2 ^ k := by omega
      rw [hhi, ih f (lo + 2 ^ k) target (by omega)]

/-- Default-midpoint loop: at most `k` bits whenever the range size is at
most `2 ^ k`. -/
lemma encodeLoop_length_le :
    ∀ fuel k lo hi target, hi - lo ≤ 2 ^ k → 2 ≤ hi - lo → hi - lo ≤ fuel →
      (encodeLoop fuel target lo hi ((lo + hi) / 2)).length ≤ k := by
  intro fuel
  induction fuel with
  | zero => intro k lo hi target _ h2 hf; omega
  | succ f ih =>
    intro k lo hi target hk h2 hf
    obtain ⟨k', rfl⟩ : ∃ k', k = k' + 1 := by
      cases k with
      | zero => norm_num at hk; omega
      | succ n => exact ⟨n, rfl⟩
    have h2k : 2 ^ (k' + 1) = 2 ^ k' + 2 ^ k' := by rw [pow_succ]; omega
    simp only [encodeLoop]
    rw [if_pos (by omega)]
    by_cases hc : target < (lo + hi) / 2
    · rw [if_pos hc]
      by_cases h1 : (lo + hi) / 2 - lo = 1
      · rw [if_pos h1]; simp
      · rw [if_neg h1]
        simp only [List.length_cons]
        have hb := ih k' lo ((lo + hi) / 2) target (by omega) (by omega)
          (by omega)
        omega
    · rw [if_neg hc]
      by_cases h1 : hi - (lo + hi) / 2 = 1
      · rw [if_pos h1]; simp
      · rw [if_neg h1]
        simp only [List.length_cons]
        have hb := ih k' ((lo + hi) / 2) hi target (by omega) (by omega)
          (by omega)
        omega

/-- Custom first midpoint: at most one bit more than the ceiling log of the
range size. -/
lemma encodeLoop_length_le_custom (fuel lo hi mid target : Nat)
    (h2 : 2 ≤ hi - lo) (h5 : lo < mid) (h6 : mid < hi) (hf : hi - lo ≤ fuel) :
    (encodeLoop fuel target lo hi mid).length ≤
      1 + Nat.clog 2 (hi - lo) := by
  obtain ⟨f, rfl⟩ : ∃ f, fuel = f + 1 := ⟨fuel - 1, by omega⟩
  simp only [encodeLoop]
  rw [if_pos (by omega)]
  by_cases hc : target < mid
  · rw [if_pos hc]
    by_cases hone : mid - lo = 1
    · rw [if_pos hone]; simp
    · rw [if_neg hone]
      simp only [List.length_cons]
      have hpow : mid - lo ≤ 2 ^ Nat.clog 2 (hi - lo) :=
        le_trans (by omega) (Nat.le_pow_clog (by norm_num) _)
      have hb := encodeLoop_length_le f (Nat.clog 2 (hi - lo)) lo mid target
        hpow (by omega) (by omega)
      omega
  · rw [if_neg hc]
    by_cases hone : hi - mid = 1
    · rw [if_pos hone]; simp
    · rw [if_neg hone]
      simp only [List.length_cons]
      have hpow : hi - mid ≤ 2 ^ Nat.clog 2 (hi - lo) :=
        le_trans (by omega) (Nat.le_pow_clog (by norm_num) _)
      have hb := encodeLoop_length_le f (Nat.clog 2 (hi - lo)) mid hi target
        hpow (by omega) (by omega)
      omega

/-- Inversion of a successful `encode_from` run: the validation prologue
must have passed, and the result is either the singleton-range empty path
or a loop run with a validated midpoint. -/
lemma encode_from_ok_inv (s e t m : Nat) (p : List Bool)
    (hp : encode_from s e t m = .ok p) :
    s < e ∧ s ≤ t ∧ t < e ∧
      ((e - s ≤ 1 ∧ p = []) ∨
        (2 ≤ e - s ∧ s < m ∧ m < e ∧ p = encodeLoop (e - s) t s e m)) := by
  unfold encode_from at hp
  split at hp
  · exact absurd hp (by simp)
  · next hc1 =>
    split at hp
    · exact absurd hp (by simp)
    · next hc2 =>
      split at hp
      · next hc3 =>
        exact ⟨by omega, by omega, by omega,
          Or.inl ⟨hc3, by simpa using hp.symm⟩⟩
      · next hc3 =>
        split at hp
        · exact absurd hp (by simp)
        · next hc4 =>
          exact ⟨by omega, by omega, by omega,
            Or.inr ⟨by omega, by omega, by omega, by simpa using hp.symm⟩⟩

/-- Any successful `encode` run: path length is at most
`⌈log₂ (end - start)⌉` and at most the bit length of `end - start`. -/
lemma encode_length_le (s e t : Nat) (p : List Bool)
    (hp : encode s e t = .ok p) :
    p.length ≤ Nat.clog 2 (e - s) ∧ p.length ≤ Nat.size (e - s) := by
  unfold encode at hp
  obtain ⟨h1, h2, h3, hcase⟩ := encode_from_ok_inv s e t ((s + e) / 2) p hp
  rcases hcase with ⟨hle, rfl⟩ | ⟨h4, h5, h6, rfl⟩
  · simp
  · constructor
    · exact encodeLoop_length_le (e - s) (Nat.clog 2 (e - s)) s e t
        (Nat.le_pow_clog (by norm_num) _) h4 le_rfl
    · exact encodeLoop_length_le (e - s) (Nat.size (e - s)) s e t
        (le_of_lt (Nat.lt_size_self _)) h4 le_rfl

/-- Any successful `encode_from` run: path length is at most
`1 + ⌈log₂ (end - start)⌉`. -/
lemma encode_from_length_le (s e t m : Nat) (p : List Bool)
    (hp : encode_from s e t m = .ok p) :
    p.length ≤ 1 + Nat.clog 2 (e - s) := by
  obtain ⟨h1, h2, h3, hcase⟩ := encode_from_ok_inv s e t m p hp
  rcases hcase with ⟨hle, rfl⟩ | ⟨h4, h5, h6, rfl⟩
  · simp
  · exact encodeLoop_length_le_custom (e - s) s e m t h4 h5 h6 le_rfl

/-! ## Agreement of the wrapping model with the unbounded model -/

/-- Wrapping addition agrees with `+` below `2 ^ w`. -/
lemma wadd_eq (w a b : Nat) (h : a + b < 2 ^ w) : wadd w a b = a + b :=
  Nat.mod_eq_of_lt h

/-- Wrapping subtraction agrees with truncated `-` on ordered
representable operands. -/
lemma wsub_eq (w a b : Nat) (hba : b ≤ a) (ha : a < 2 ^ w) :
    wsub w a b = a - b := by
  unfold wsub
  have h1 : a + 2 ^ w - b = a - b + 2 ^ w := by omega
  rw [h1, Nat.add_mod_right]
  exact Nat.mod_eq_of_lt (by omega)

/-- Splitting `2 ^ w` in half (for positive `w`). -/
lemma two_pow_half (w : Nat) (hw : 0 < w) :
    2 ^ (w - 1) + 2 ^ (w - 1) = 2 ^ w := by
  obtain ⟨v, rfl⟩ : ∃ v, w = v + 1 := ⟨w - 1, by omega⟩
  simp only [Nat.add_sub_cancel]
  rw [pow_succ]
  omega

/-- When the upper bound stays at or below `2 ^ (w-1)`, no intermediate sum
of the search loop can reach `2 ^ w`, and the wrapping loop agrees with the
unbounded one. -/
lemma encodeLoopW_eq (w : Nat) :
    ∀ fuel lo hi mid target, 0 < w → hi ≤ 2 ^ (w - 1) → lo < mid →
      mid < hi →
      encodeLoopW w fuel target lo hi mid =
        encodeLoop fuel target lo hi mid := by
  intro fuel
  induction fuel with
  | zero => intros; rfl
  | succ f ih =>
    intro lo hi mid target hw hhi hlm hmh
    have hpow : 2 ^ (w - 1) + 2 ^ (w - 1) = 2 ^ w := two_pow_half w hw
    simp only [encodeLoopW, encodeLoop]
    rw [wsub_eq w hi lo (by omega) (by omega),
      wsub_eq w mid lo (by omega) (by omega),
      wsub_eq w hi mid (by omega) (by omega),
      wadd_eq w lo mid (by omega), wadd_eq w mid hi (by omega)]
    rw [if_pos (show 1 < hi - lo by omega),
      if_pos (show 1 < hi - lo by omega)]
    by_cases hc : target < mid
    · rw [if_pos hc, if_pos hc]
      by_cases hone : mid - lo = 1
      · rw [if_pos hone, if_pos hone]
      · rw [if_neg hone, if_neg hone,
          ih lo mid ((lo + mid) / 2) target hw (by omega) (by omega)
            (by omega)]
    · rw [if_neg hc, if_neg hc]
      by_cases hone : hi - mid = 1
      · rw [if_pos hone, if_pos hone]
      · rw [if_neg hone, if_neg hone,
          ih mid hi ((mid + hi) / 2) target hw hhi (by omega) (by omega)]

/-- The decode loop keeps its bounds ordered and inside the original
range's upper bound, with the lower bound strictly below it. -/
lemma decodeBounds_invariant :
    ∀ (path : List Bool) (lo hi e : Nat), lo ≤ hi → hi ≤ e → lo < e →
      (decodeBounds lo hi path).1 ≤ (decodeBounds lo hi path).2 ∧
        (decodeBounds lo hi path).2 ≤ e ∧ (decodeBounds lo hi path).1 < e := by
  intro path
  induction path with
  | nil => intro lo hi e h1 h2 h3; exact ⟨h1, h2, h3⟩
  | cons b rest ih =>
    intro lo hi e h1 h2 h3
    simp only [decodeBounds]
    cases b
    · simp only [Bool.false_eq_true, if_false]
      exact ih lo ((lo + hi) / 2) e (by omega) (by omega) h3
    · simp only [if_true]
      exact ih ((lo + hi) / 2) hi e (by omega) (by omega) (by omega)

/-- Below half the word range, the wrapping decode loop agrees with the
unbounded one. -/
lemma decodeBoundsW_eq (w : Nat) :
    ∀ (path : List Bool) (lo hi e : Nat), 0 < w → e ≤ 2 ^ (w - 1) →
      lo ≤ hi → hi ≤ e → lo < e →
      decodeBoundsW w lo hi path = decodeBounds lo hi path := by
  intro path
  induction path with
  | nil => intros; rfl
  | cons b rest ih =>
    intro lo hi e hw he hlh hhe hle
    have hpow : 2 ^ (w - 1) + 2 ^ (w - 1) = 2 ^ w := two_pow_half w hw
    simp only [decodeBoundsW, decodeBounds]
    rw [wadd_eq w lo hi (by omega)]
    cases b
    · simp only [Bool.false_eq_true, if_false]
      exact ih lo ((lo + hi) / 2) e hw he (by omega) (by omega) hle
    · simp only [if_true]
      exact ih ((lo + hi) / 2) hi e hw he (by omega) (by omega) (by omega)

/-- Below half the word range, wrapping `decode` agrees with unbounded
`decode`. -/
lemma decodeW_eq (w s e : Nat) (path : List Bool) (hw : 0 < w)
    (he : e ≤ 2 ^ (w - 1)) (hse : s < e) :
    decodeW w s e path = decode s e path := by
  have hpow : 2 ^ (w - 1) + 2 ^ (w - 1) = 2 ^ w := two_pow_half w hw
  have hB := decodeBounds_invariant path s e e (le_of_lt hse) le_rfl hse
  simp only [decodeW, decode]
  rw [decodeBoundsW_eq w path s e e hw he (le_of_lt hse) le_rfl hse,
    wadd_eq w (decodeBounds s e path).1 1 (by omega)]

/-- Below half the word range, wrapping `encode_from` agrees with unbounded
`encode_from`. -/
lemma encode_fromW_eq (w s e t m : Nat) (hw : 0 < w)
    (he : e ≤ 2 ^ (w - 1)) :
    encode_fromW w s e t m = encode_from s e t m := by
  have hpow : 2 ^ (w - 1) + 2 ^ (w - 1) = 2 ^ w := two_pow_half w hw
  unfold encode_fromW encode_from
  by_cases h1 : s < e
  · rw [if_neg (not_not_intro h1), if_neg (not_not_intro h1),
      wsub_eq w e s (le_of_lt h1) (by omega)]
    by_cases h2 : s ≤ t ∧ t < e
    · rw [if_neg (not_not_intro h2), if_neg (not_not_intro h2)]
      by_cases h3 : e - s ≤ 1
      · rw [if_pos h3, if_pos h3]
      · rw [if_neg h3, if_neg h3]
        by_cases h4 : s < m ∧ m < e
        · rw [if_neg (not_not_intro h4), if_neg (not_not_intro h4),
            encodeLoopW_eq w (e - s) s e m t hw he h4.1 h4.2]
        · rw [if_pos h4, if_pos h4]
    · rw [if_pos h2, if_pos h2]
  · rw [if_pos h1, if_pos h1]

/-- Below half the word range, wrapping `encode` agrees with unbounded
`encode`. -/
lemma encodeW_eq (w s e t : Nat) (hw : 0 < w) (he : e ≤ 2 ^ (w - 1)) :
    encodeW w s e t = encode s e t := by
  have hpow : 2 ^ (w - 1) + 2 ^ (w - 1) = 2 ^ w := two_pow_half w hw
  unfold encodeW encode
  by_cases h1 : s < e
  · rw [wadd_eq w s e (by omega), encode_fromW_eq w s e t _ hw he]
  · rw [encode_fromW_eq w s e t _ hw he]
    unfold encode_from
    rw [if_pos (by omega), if_pos (by omega)]

/-! ## The wrapping loop can cycle even when `start + end` fits -/

/-- With 4-bit wrapping arithmetic on range `[0, 9)` and target `8`
(`start + end = 9 < 2 ^ 4`), the recomputed `left + right` sums overflow
and the loop state returns to itself every four iterations. -/
lemma encodeLoopW_cycle (f : Nat) :
    encodeLoopW 4 (f + 4) 8 0 9 4 =
      true :: true :: true :: true :: encodeLoopW 4 f 8 0 9 4 := by
  simp [encodeLoopW, wsub, wadd]

/-- On that input the wrapping loop emits one bit per unit of fuel for
every fuel value: the source's unfuelled `while` loop never exits. -/
lemma encodeLoopW_no_exit :
    ∀ f, (encodeLoopW 4 f 8 0 9 4).length = f := by
  intro f
  induction f using Nat.strong_induction_on with
  | _ f ih =>
    rcases f with _ | _ | _ | _ | g
    · decide
    · decide
    · decide
    · decide
    · show (encodeLoopW 4 (g + 4) 8 0 9 4).length = g + 4
      rw [encodeLoopW_cycle g]
      simp only [List.length_cons]
      rw [ih g (by omega)]

/-! ## Error taxonomy of the validation prologue -/

/-- `encode_from` reports `InvalidRange` exactly when `start ≥ end`. -/
lemma encode_from_invalidRange_iff (s e t m : Nat) :
    encode_from s e t m = .error .invalidRange ↔ e ≤ s := by
  unfold encode_from
  by_cases h1 : s < e
  · rw [if_neg (not_not_intro h1)]
    constructor
    · intro h
      split at h
      · simp at h
      · split at h
        · simp at h
        · split at h
          · simp at h
          · simp at h
    · intro h; exact absurd h (by omega)
  · rw [if_pos h1]
    constructor
    · intro _; omega
    · intro _; rfl

/-- Given a valid range, `encode_from` reports `TargetOutOfBounds` exactly
when the target lies outside `[start, end)`. -/
lemma encode_from_targetOOB_iff (s e t m : Nat) (h1 : s < e) :
    encode_from s e t m = .error .targetOutOfBounds ↔ t < s ∨ e ≤ t := by
  unfold encode_from
  rw [if_neg (not_not_intro h1)]
  by_cases h2 : s ≤ t ∧ t < e
  · rw [if_neg (not_not_intro h2)]
    constructor
    · intro h
      split at h
      · simp at h
      · split at h
        · simp at h
        · simp at h
    · intro h; exact absurd h (by omega)
  · rw [if_pos h2]
    constructor
    · intro _; omega
    · intro _; rfl

/-- Given a valid range and target and a range of at least two elements,
`encode_from` reports `MidpointOutOfBounds` exactly when the midpoint is
not strictly inside `(start, end)`. -/
lemma encode_from_midpointOOB_iff (s e t m : Nat) (h1 : s < e) (h2 : s ≤ t)
    (h3 : t < e) (h4 : 2 ≤ e - s) :
    encode_from s e t m = .error .midpointOutOfBounds ↔ m ≤ s ∨ e ≤ m := by
  unfold encode_from
  rw [if_neg (not_not_intro h1), if_neg (not_not_intro ⟨h2, h3⟩),
    if_neg (show ¬(e - s ≤ 1) by omega)]
  by_cases h5 : s < m ∧ m < e
  · rw [if_neg (not_not_intro h5)]
    constructor
    · intro h; simp at h
    · intro h; exact absurd h (by omega)
  · rw [if_pos h5]
    constructor
    · intro _; omega
    · intro _; rfl

/-! ## Claim theorems -/

/-- C1: for every `start`, `end`, `target` with `0 ≤ start < end` and
`start ≤ target < end`, decoding the path produced by `encode` against the
same range recovers the target:
`decode (start, end, encode (start, end, target)) = target`. -/
theorem C1_encode_decode_roundtrip (s e t : Nat) (h1 : s < e) (h2 : s ≤ t)
    (h3 : t < e) : ∃ p, encode s e t = .ok p ∧ decode s e p = .ok t :=
  roundtrip s e t h1 h2 h3

/-- Witness for C1 at `start = 0`, `end = 16`, `target = 5`. -/
theorem C1_encode_decode_roundtrip_witness :
    (0 < 16 ∧ 0 ≤ 5 ∧ 5 < 16) ∧
      ∃ p, encode 0 16 5 = .ok p ∧ decode 0 16 p = .ok 5 :=
  ⟨⟨by decide, by decide, by decide⟩,
    C1_encode_decode_roundtrip 0 16 5 (by decide) (by decide) (by decide)⟩

/-- C2: for every valid `(start, end, target, midpoint)` with
`start < end`, `start ≤ target < end` and `start < midpoint < end`, the
spec-modelled `decode_from` with the same midpoint inverts `encode_from`. -/
theorem C2_encode_from_decode_from_roundtrip (s e t m : Nat) (h1 : s < e)
    (h2 : s ≤ t) (h3 : t < e) (h5 : s < m) (h6 : m < e) :
    ∃ p, encode_from s e t m = .ok p ∧ decode_from s e p m = .ok t :=
  roundtrip_from s e t m h1 h2 h3 h5 h6

/-- Witness for C2 at `start = 0`, `end = 16`, `target = 5`,
`midpoint = 8`. -/
theorem C2_encode_from_decode_from_roundtrip_witness :
    (0 < 16 ∧ 0 ≤ 5 ∧ 5 < 16 ∧ 0 < 8 ∧ 8 < 16) ∧
      ∃ p, encode_from 0 16 5 8 = .ok p ∧ decode_from 0 16 p 8 = .ok 5 :=
  ⟨⟨by decide, by decide, by decide, by decide, by decide⟩,
    C2_encode_from_decode_from_roundtrip 0 16 5 8 (by decide) (by decide)
      (by decide) (by decide) (by decide)⟩

/-- C3 counterexample: for the range `[0, 4)` (so `end - start > 1`) and
`target = (0 + 4) / 2 = 2`, the encoder does not terminate immediately at
the midpoint hit — the returned path is `[true, false]`, not the empty
path the claim requires. -/
theorem C3_midpoint_early_exit_counterexample :
    encode 0 4 2 = .ok [true, false] ∧ ([true, false] : List Bool) ≠ [] :=
  ⟨by decide, by decide⟩

/-- C3 amended: when the target equals the probed midpoint the encoder does
not stop early: it records `true` (treating `target ≥ mid` as "go right",
setting `left = mid`) and keeps narrowing until one element remains; in
particular, for any range with `end - start > 1` and
`target = (start + end) / 2`, the returned path is nonempty and starts with
`true`. -/
theorem C3_midpoint_hit_pushes_true (s e : Nat) (h : 2 ≤ e - s) :
    ∃ rest, encode s e ((s + e) / 2) = .ok (true :: rest) :=
  encode_midpoint_first_bit s e h

/-- Witness for the amended C3 at `start = 0`, `end = 4`. -/
theorem C3_midpoint_hit_pushes_true_witness :
    2 ≤ 4 - 0 ∧ ∃ rest, encode 0 4 ((0 + 4) / 2) = .ok (true :: rest) :=
  ⟨by decide, C3_midpoint_hit_pushes_true 0 4 (by decide)⟩

/-- C4: `decode` folds the bits in order over the bounds (the midpoint
`(lo + hi) / 2` recomputed from the current bounds; a `true` bit sets
`lo = mid`, a `false` bit sets `hi = mid`), fails with `IncompletePath`
exactly when the final bounds satisfy `hi - lo ≠ 1`, otherwise returns the
final `lo`; in particular decoding `[true]` against `[0, 3)` fails with
`IncompletePath`. -/
theorem C4_decode_incomplete_path :
    (∀ (s e : Nat) (p : List Bool),
      decodeBounds s e p =
        p.foldl
          (fun q b =>
            if b then ((q.1 + q.2) / 2, q.2) else (q.1, (q.1 + q.2) / 2))
          (s, e)) ∧
    (∀ (s e : Nat) (p : List Bool),
      decode s e p = .error .incompletePath ↔
        (decodeBounds s e p).2 - (decodeBounds s e p).1 ≠ 1) ∧
    (∀ (s e : Nat) (p : List Bool),
      (decodeBounds s e p).2 - (decodeBounds s e p).1 = 1 →
        decode s e p = .ok (decodeBounds s e p).1) ∧
    decode 0 3 [true] = .error .incompletePath :=
  ⟨fun s e p => decodeBounds_foldl p s e, decode_error_iff,
    decode_ok_of_singleton, by decide⟩

/-- Witness for C4's conditional part at `start = 42`, `end = 43`, empty
path. -/
theorem C4_decode_incomplete_path_witness :
    (decodeBounds 42 43 []).2 - (decodeBounds 42 43 []).1 = 1 ∧
      decode 42 43 [] = .ok (decodeBounds 42 43 []).1 :=
  ⟨by decide, C4_decode_incomplete_path.2.2.1 42 43 [] (by decide)⟩

/-- C5: `encode` fails with `InvalidRange` exactly when `start ≥ end`;
given `start < end` it fails with `TargetOutOfBounds` exactly when
`target < start` or `target ≥ end`; and on a valid range and target it
returns a path without failing. -/
theorem C5_encode_error_taxonomy (s e t : Nat) :
    (encode s e t = .error .invalidRange ↔ e ≤ s) ∧
    (s < e → (encode s e t = .error .targetOutOfBounds ↔ t < s ∨ e ≤ t)) ∧
    (s < e → s ≤ t → t < e → ∃ p, encode s e t = .ok p) := by
  refine ⟨encode_from_invalidRange_iff s e t _,
    fun h1 => encode_from_targetOOB_iff s e t _ h1,
    fun h1 h2 h3 => ?_⟩
  obtain ⟨p, hp, -⟩ := roundtrip s e t h1 h2 h3
  exact ⟨p, hp⟩

/-- Witness for C5's conditional parts: the spec's own boundary cases
`encode 0 5 5` (target at `end`) and a valid call `encode 0 5 2`. -/
theorem C5_encode_error_taxonomy_witness :
    (0 < 5 ∧ (encode 0 5 5 = .error .targetOutOfBounds ↔ 5 < 0 ∨ 5 ≤ 5)) ∧
      (0 < 5 ∧ 0 ≤ 2 ∧ 2 < 5 ∧ ∃ p, encode 0 5 2 = .ok p) :=
  ⟨⟨by decide, (C5_encode_error_taxonomy 0 5 5).2.1 (by decide)⟩,
    ⟨by decide, by decide, by decide,
      (C5_encode_error_taxonomy 0 5 2).2.2 (by decide) (by decide)
        (by decide)⟩⟩

/-- C6: on a valid range and target, if `end - start ≤ 1` then
`encode_from` returns the empty path with the same result for every
midpoint argument (it is never validated); otherwise it fails with
`MidpointOutOfBounds` exactly when `midpoint ≤ start` or
`midpoint ≥ end`. -/
theorem C6_encode_from_midpoint_validation (s e t m : Nat) (h1 : s < e)
    (h2 : s ≤ t) (h3 : t < e) :
    (e - s ≤ 1 → ∀ m', encode_from s e t m' = .ok []) ∧
    (2 ≤ e - s →
      (encode_from s e t m = .error .midpointOutOfBounds ↔
        m ≤ s ∨ e ≤ m)) :=
  ⟨fun h4 m' => encode_from_singleton s e t m' h1 h2 h3 h4,
    fun h4 => encode_from_midpointOOB_iff s e t m h1 h2 h3 h4⟩

/-- Witness for C6: the singleton range `[42, 43)` ignores an absurd
midpoint, and `encode_from 0 10 5 0` is rejected (the spec's own boundary
case). -/
theorem C6_encode_from_midpoint_validation_witness :
    (42 < 43 ∧ 43 - 42 ≤ 1 ∧ encode_from 42 43 42 999 = .ok []) ∧
      (0 < 10 ∧ 2 ≤ 10 - 0 ∧
        (encode_from 0 10 5 0 = .error .midpointOutOfBounds ↔
          0 ≤ 0 ∨ 10 ≤ 0)) :=
  ⟨⟨by decide, by decide,
      (C6_encode_from_midpoint_validation 42 43 42 0 (by decide) (by decide)
        (by decide)).1 (by decide) 999⟩,
    ⟨by decide, by decide,
      (C6_encode_from_midpoint_validation 0 10 5 0 (by decide) (by decide)
        (by decide)).2 (by decide)⟩⟩

/-- C7: for every `k ≥ 0` and range of size exactly `2 ^ k`, every valid
target produces a path of length exactly `k`. -/
theorem C7_pow_two_exact_length (s k t : Nat) (h2 : s ≤ t)
    (h3 : t < s + 2 ^ k) :
    ∃ p, encode s (s + 2 ^ k) t = .ok p ∧ p.length = k := by
  rcases Nat.eq_zero_or_pos k with rfl | hk
  · exact ⟨[], encode_from_singleton s (s + 2 ^ 0) t _ (by norm_num) h2 h3
      (by norm_num), rfl⟩
  · have hpow2 : 2 ≤ 2 ^ k := by
      have := Nat.pow_le_pow_right (show 1 ≤ 2 by norm_num) hk
      simpa using this
    refine ⟨_, encode_from_ok s (s + 2 ^ k) t ((s + (s + 2 ^ k)) / 2)
      (by omega) h2 h3 (by omega) (by omega) (by omega), ?_⟩
    rw [show s + 2 ^ k - s = 2 ^ k from by omega]
    exact encodeLoop_length_pow k hk (2 ^ k) s t le_rfl

/-- Witness for C7 at `start = 0`, `k = 3`, `target = 5`. -/
theorem C7_pow_two_exact_length_witness :
    (0 ≤ 5 ∧ 5 < 0 + 2 ^ 3) ∧
      ∃ p, encode 0 (0 + 2 ^ 3) 5 = .ok p ∧ p.length = 3 :=
  ⟨⟨by decide, by decide⟩,
    C7_pow_two_exact_length 0 3 5 (by decide) (by decide)⟩

/-- C8 counterexample: the valid call `encode_from 0 10 9 1` returns a
five-bit path, exceeding the bit length `4` of `end - start = 10`
(`2 ^ 3 ≤ 10 < 2 ^ 4`), so the claimed bound fails for `encode_from`. -/
theorem C8_bit_length_counterexample :
    encode_from 0 10 9 1 = .ok [true, true, true, true, true] ∧
      Nat.size (10 - 0) = 4 ∧
      ¬([true, true, true, true, true] : List Bool).length ≤ 4 := by
  refine ⟨by decide, ?_, by decide⟩
  have h1 : Nat.size 10 ≤ 4 := Nat.size_le.2 (by norm_num)
  have h2 : ¬ Nat.size 10 ≤ 3 := fun h => absurd (Nat.size_le.1 h)
    (by norm_num)
  have h3 : (10 - 0 : Nat) = 10 := rfl
  rw [h3]
  omega

/-- C8 amended: every operation is total in this model (all definitions are
terminating functions), and the path-length bound splits by variant: any
successful `encode` returns a path of length at most
`⌈log₂ (end - start)⌉`, which is at most the bit length of `end - start`;
a successful `encode_from` with an arbitrary valid midpoint is only
bounded by one bit more, `1 + ⌈log₂ (end - start)⌉`. -/
theorem C8_path_length_bounds :
    (∀ (s e t : Nat) (p : List Bool), encode s e t = .ok p →
      p.length ≤ Nat.clog 2 (e - s) ∧ p.length ≤ Nat.size (e - s)) ∧
    (∀ (s e t m : Nat) (p : List Bool), encode_from s e t m = .ok p →
      p.length ≤ 1 + Nat.clog 2 (e - s)) :=
  ⟨encode_length_le, encode_from_length_le⟩

/-- Witness for C8 at `encode 0 16 5`. -/
theorem C8_path_length_bounds_witness :
    encode 0 16 5 = .ok [false, true, false, true] ∧
      ([false, true, false, true] : List Bool).length ≤
          Nat.clog 2 (16 - 0) ∧
        ([false, true, false, true] : List Bool).length ≤
          Nat.size (16 - 0) :=
  ⟨by decide, C8_path_length_bounds.1 0 16 5 [false, true, false, true]
    (by decide)⟩

/-- C9: on valid inputs (`start < end`, `start ≤ target < end`, and a
strictly interior midpoint whenever `end - start > 1`), the path returned
by `encode_from` — hence also by `encode` — is empty exactly when
`end - start = 1`. -/
theorem C9_empty_path_iff_singleton (s e t m : Nat) (h1 : s < e)
    (h2 : s ≤ t) (h3 : t < e) (hm : 2 ≤ e - s → s < m ∧ m < e) :
    (∀ p, encode_from s e t m = .ok p → (p = [] ↔ e - s = 1)) ∧
    (∀ p, encode s e t = .ok p → (p = [] ↔ e - s = 1)) := by
  constructor
  · intro p hp
    by_cases h4 : 2 ≤ e - s
    · obtain ⟨hm1, hm2⟩ := hm h4
      rw [encode_from_ok s e t m h1 h2 h3 h4 hm1 hm2] at hp
      have hne := encodeLoop_ne_nil (e - s) s e m t h4 hm1 hm2 h2 h3 le_rfl
      have hp' : p = encodeLoop (e - s) t s e m := by simpa using hp.symm
      constructor
      · intro hpe; rw [hp'] at hpe; exact absurd hpe hne
      · intro h5; omega
    · rw [encode_from_singleton s e t m h1 h2 h3 (by omega)] at hp
      have hp' : p = [] := by simpa using hp.symm
      exact ⟨fun _ => by omega, fun _ => hp'⟩
  · intro p hp
    unfold encode at hp
    by_cases h4 : 2 ≤ e - s
    · rw [encode_from_ok s e t _ h1 h2 h3 h4 (by omega) (by omega)] at hp
      have hne := encodeLoop_ne_nil (e - s) s e ((s + e) / 2) t h4 (by omega)
        (by omega) h2 h3 le_rfl
      have hp' : p = encodeLoop (e - s) t s e ((s + e) / 2) := by
        simpa using hp.symm
      constructor
      · intro hpe; rw [hp'] at hpe; exact absurd hpe hne
      · intro h5; omega
    · rw [encode_from_singleton s e t _ h1 h2 h3 (by omega)] at hp
      have hp' : p = [] := by simpa using hp.symm
      exact ⟨fun _ => by omega, fun _ => hp'⟩

/-- Witness for C9 at `start = 0`, `end = 2`, `target = 0`,
`midpoint = 1`, where `encode_from` returns `[false]`. -/
theorem C9_empty_path_iff_singleton_witness :
    (0 < 2 ∧ 0 ≤ 0 ∧ 0 < 2) ∧
      (([false] : List Bool) = [] ↔ 2 - 0 = 1) :=
  ⟨⟨by decide, by decide, by decide⟩,
    (C9_empty_path_iff_singleton 0 2 0 1 (by decide) (by decide) (by decide)
      (fun _ => ⟨by decide, by decide⟩)).1 [false] (by decide)⟩

/-- C10 counterexample: at word width `w = 4` the input `start = 0`,
`end = 9`, `target = 8` satisfies the claim's unstated precondition
`start + end ≤ 2 ^ w - 1`, yet the wrapped round trip fails: inside the
loop the recomputed sum `left + right` reaches `7 + 9 = 16` and wraps, the
probe point collapses to `0`, and the state cycles (the fuelled model
returns a nine-bit junk path that decodes to `IncompletePath`;
`encodeLoopW_no_exit` shows the unfuelled source loop never exits). -/
theorem C10_wrap_precondition_counterexample :
    0 + 9 ≤ 2 ^ 4 - 1 ∧
      (encodeW 4 0 9 8).bind (decodeW 4 0 9) ≠ .ok 8 :=
  ⟨by decide, by decide⟩

/-- C10 amended: the midpoints are computed as
`((start + end) mod 2 ^ w) / 2` in `w`-bit machine arithmetic and can
wrap; the round-trip guarantee needs the stronger precondition
`end ≤ 2 ^ (w - 1)` (which keeps every intermediate sum, including the
loop's recomputed `left + right`, below `2 ^ w`), under which the wrapping
model agrees with the unbounded one and the round trip holds. The weaker
`start + end ≤ 2 ^ w - 1` is not sufficient. -/
theorem C10_wrap_roundtrip (w s e t : Nat) (hw : 0 < w)
    (he : e ≤ 2 ^ (w - 1)) (h1 : s < e) (h2 : s ≤ t) (h3 : t < e) :
    ∃ p, encodeW w s e t = .ok p ∧ decodeW w s e p = .ok t := by
  obtain ⟨p, hE, hD⟩ := roundtrip s e t h1 h2 h3
  refine ⟨p, ?_, ?_⟩
  · rw [encodeW_eq w s e t hw he]; exact hE
  · rw [decodeW_eq w s e p hw he h1]; exact hD

/-- Witness for the amended C10 at `w = 8`, range `[0, 100)`,
`target = 37`. -/
theorem C10_wrap_roundtrip_witness :
    (0 < 8 ∧ 100 ≤ 2 ^ (8 - 1) ∧ 0 < 100 ∧ 0 ≤ 37 ∧ 37 < 100) ∧
      ∃ p, encodeW 8 0 100 37 = .ok p ∧ decodeW 8 0 100 p = .ok 37 :=
  ⟨⟨by decide, by decide, by decide, by decide, by decide⟩,
    C10_wrap_roundtrip 8 0 100 37 (by decide) (by decide) (by decide)
      (by decide) (by decide)⟩

end BBSE
